import Mathlib

/-!
# The TensorFlow Go binding layer: string-tensor codec, status bridge, Run, LoadSavedModel

A shallow embedding of `src/tensorflow.go` and `src/tensorflow/go/saved_model.go`.

Conventions of the embedding

* A Go `string` and a Go `[]byte` are lists of bytes (`List UInt8`).
* A Go `int` is a natural number; the conversion `uint64(n)` is `n % 2 ^ 64`.
  Theorems that need a value to fit carry that as a hypothesis on the size
  the code itself computes.
* A run-time panic (slice bound, index out of range) is the result `none`
  (or the outcome `panicked`), so a theorem that gives `some _` also says that
  the code does not panic.
* Native entry points and functions of the package that are not part of the
  two source files are parameters of the embedded function.
-/

namespace TensorFlow

/-! ## Bytes, strings, library helpers -/

/-- A Go string: an immutable sequence of bytes. -/
abbrev GoString := List UInt8

/-- ASCII text as a Go string. -/
def ascii (s : String) : GoString := s.data.map (fun c => UInt8.ofNat c.toNat)

/-- The conversion `uint64(n)` of a non-negative Go `int`. -/
def uint64 (n : Nat) : Nat := n % 2 ^ 64

/-- The loop of `proto.EncodeVarint`; `slots` counts the remaining continuation
bytes of the fixed array `buf [maxVarintBytes]byte`. -/
def varintLoop : Nat → Nat → List UInt8
  | 0, x => [UInt8.ofNat x]
  | slots + 1, x =>
    if x > 127 then
      UInt8.ofNat (0x80 ||| (x &&& 0x7F)) :: varintLoop slots (x >>> 7)
    else
      [UInt8.ofNat x]

/-- Modelled from the spec: `proto.EncodeVarint` of the protocol-buffer library
is not among the source files. The spec describes it as the protocol-buffer
varint, 7 data bits per byte, least significant group first, high bit set on
all but the final byte. The library writes into an array of
`maxVarintBytes = 10` bytes, which is enough for every `uint64`: nine
continuation bytes and a final one. -/
def EncodeVarint (x : Nat) : List UInt8 := varintLoop 9 x

/-- The 8 little-endian bytes of `v`: `byte(v)`, `byte(v >> 8)`, and so on up
to `byte(v >> 56)`. -/
def le64 (v : Nat) : List UInt8 :=
  [UInt8.ofNat v, UInt8.ofNat (v >>> 8), UInt8.ofNat (v >>> 16),
    UInt8.ofNat (v >>> 24), UInt8.ofNat (v >>> 32), UInt8.ofNat (v >>> 40),
    UInt8.ofNat (v >>> 48), UInt8.ofNat (v >>> 56)]

/-- Modelled from the spec: `binary.LittleEndian.PutUint64(b, v)` of the Go
standard library is not among the source files: it stores the 8 bytes of `v`,
least significant first, into `b[0..8)` and panics when `b` is shorter than 8
bytes. The result is the new content of `b`. -/
def PutUint64 (b : List UInt8) (v : Nat) : Option (List UInt8) :=
  if b.length < 8 then none
  else some (le64 v ++ b.drop 8)

/-- The Go builtin `copy(dst, src)`: copies `min(len(dst), len(src))` bytes
and returns the new content of `dst` together with the number copied. -/
def copy (dst src : List UInt8) : List UInt8 × Nat :=
  let n := min dst.length src.length
  (src.take n ++ dst.drop n, n)

/-- The slice expression `b[p:]`: panics when `p > len(b)`. -/
def sliceFrom (b : List UInt8) (p : Nat) : Option (List UInt8) :=
  if p ≤ b.length then some (b.drop p) else none

/-- Writing the new content `w` of the view `b[p:]` back into `b`. -/
def storeFrom (b : List UInt8) (p : Nat) (w : List UInt8) : List UInt8 :=
  b.take p ++ w

/-! ## encodeStrings -/

/-- The first loop of `encodeStrings`: the size of the buffer. -/
def encodedSize (input : List GoString) : Nat :=
  input.foldl
    (fun size s => size + 8 + s.length + (EncodeVarint (uint64 s.length)).length) 0

/-- The second loop of `encodeStrings`, from index `i` on: `out` is the
buffer, `offset` the write position inside `data = out[dataPos:]`. -/
def encodeLoop (dataPos : Nat) : Nat → List GoString → List UInt8 → Nat → Option (List UInt8)
  | _, [], out, _ => some out
  | i, s :: rest, out, offset => do
    let inBytes : List UInt8 := s
    -- binary.LittleEndian.PutUint64(out[i*8:], uint64(offset))
    let v ← sliceFrom out (i * 8)
    let v ← PutUint64 v (uint64 offset)
    let out := storeFrom out (i * 8) v
    let inLen := EncodeVarint (uint64 s.length)
    -- offset += copy(data[offset:], inLen)
    let data ← sliceFrom out dataPos
    let d ← sliceFrom data offset
    let (d, n) := copy d inLen
    let out := storeFrom out (dataPos + offset) d
    let offset := offset + n
    -- offset += copy(data[offset:], inBytes)
    let data ← sliceFrom out dataPos
    let d ← sliceFrom data offset
    let (d, n) := copy d inBytes
    let out := storeFrom out (dataPos + offset) d
    let offset := offset + n
    encodeLoop dataPos (i + 1) rest out offset

/-- The function `encodeStrings` of `tensorflow.go`. -/
def encodeStrings (input : List GoString) : Option (List UInt8) := do
  let size := encodedSize input
  let out : List UInt8 := List.replicate size 0
  let dataPos := 8 * input.length
  let _data ← sliceFrom out dataPos
  encodeLoop dataPos 0 input out 0

/-- What the loop writes into the data part for the strings `rest`. -/
def dataOf : List GoString → List UInt8
  | [] => []
  | s :: rest => EncodeVarint (uint64 s.length) ++ s ++ dataOf rest

/-- What the loop writes into the offset table for the strings `rest`, the
first of them starting at `offset`. -/
def tableFrom : Nat → List GoString → List UInt8
  | _, [] => []
  | offset, s :: rest =>
    le64 (uint64 offset) ++
      tableFrom (offset + (EncodeVarint (uint64 s.length)).length + s.length) rest

/-- Reading a varint off the front of a byte sequence: the value and the
bytes that follow it. -/
def decodeVarint : List UInt8 → Option (Nat × List UInt8)
  | [] => none
  | b :: rest =>
    if b.toNat < 128 then some (b.toNat, rest)
    else (decodeVarint rest).map (fun p => (b.toNat - 128 + 128 * p.1, p.2))

/-! ### The layout in the words of the specification -/

/-- The value of a little-endian byte sequence. -/
def littleEndianValue : List UInt8 → Nat
  | [] => 0
  | b :: rest => b.toNat + 256 * littleEndianValue rest

/-- The value carried by a varint: 7 data bits per byte, least significant
group first. -/
def varintValue : List UInt8 → Nat
  | [] => 0
  | b :: rest => b.toNat % 128 + 128 * varintValue rest

/-- The high bit is set on all but the final byte, and there is a final byte. -/
def varintHighBits : List UInt8 → Bool
  | [] => false
  | [b] => decide (b.toNat < 128)
  | b :: rest => decide (128 ≤ b.toNat) && varintHighBits rest

/-- One entry of the data part: the varint of the byte length, then the bytes. -/
def specEntry (s : GoString) : List UInt8 := EncodeVarint s.length ++ s

/-- The length of one entry: `varint_len(len(s)) + len(s)`. -/
def specEntryLen (s : GoString) : Nat := (EncodeVarint s.length).length + s.length

/-- The data part: the entries, concatenated in list order. -/
def specData (input : List GoString) : List UInt8 :=
  (input.map specEntry).foldr (fun e acc => e ++ acc) []

/-- The offset of entry `i`: the sum over `j < i` of the entry lengths. -/
def specOffset (input : List GoString) (i : Nat) : Nat :=
  ((input.take i).map specEntryLen).sum

/-! ## statusToError -/

/-- The loop that writes the decimal digits of `n` in front of `acc`. -/
def decimalLoop : Nat → Nat → List UInt8 → List UInt8
  | 0, _, acc => acc
  | fuel + 1, n, acc =>
    let d := UInt8.ofNat (48 + n % 10)
    if n / 10 = 0 then d :: acc else decimalLoop fuel (n / 10) (d :: acc)

/-- The decimal digits of a natural number. -/
def formatNat (n : Nat) : GoString := decimalLoop (n + 1) n []

/-- Modelled from the spec: the verb `%d` of the Go library `fmt`, which is
not among the source files: the decimal digits, after a minus sign for a
negative number. -/
def formatInt : Int → GoString
  | Int.ofNat n => formatNat n
  | Int.negSucc n => 45 :: formatNat (n + 1)

/-- What `TF_GetCode` and `TF_Message` read off a native status. -/
structure TF_Status where
  code : Int
  message : GoString
deriving DecidableEq

/-- The function `statusToError` of `tensorflow.go`; an error made by
`fmt.Errorf` is its text, `nil` is `none`. -/
def statusToError (status : TF_Status) : Option GoString :=
  let code := status.code
  let message := status.message
  if code ≠ 0 then
    some (ascii "tensorflow: " ++ formatInt code ++ ascii ": " ++ message)
  else
    none

/-- The number a sequence of decimal digits stands for. -/
def decimalValue (ds : List UInt8) : Nat :=
  ds.foldl (fun a d => 10 * a + (d.toNat - 48)) 0

/-- How a call ends: it returns, or it panics. -/
inductive Outcome (α : Type) where
  | returned (value : α)
  | panicked
deriving DecidableEq

/-! ## Constant -/

/-- A host value of type `interface{}`: a `string`, or a value of any other
dynamic type, of which only the name that `%T` prints matters. -/
inductive Value where
  | string (v : GoString)
  | other (typeName : GoString)
deriving DecidableEq

/-- The arguments of one call of `newTensor`: data type, shape, the memory
behind the pointer `&buf[0]`, and the declared length. -/
structure NewTensorCall (DataType Shape : Type) where
  dataType : DataType
  shape : Shape
  data : List UInt8
  size : Nat
deriving DecidableEq

/-- An error value `Constant` can return: one it made itself with
`fmt.Errorf`, or the one `newTensor` returned. -/
inductive ConstantError (E : Type) where
  | errorf (text : GoString)
  | fromNewTensor (err : E)
deriving DecidableEq

/-- One run of `Constant`: the calls of `newTensor` it made and how it ended,
the returned pair being `(*Tensor, error)` with `nil` as `none`. -/
structure ConstantRun (DataType Shape T E : Type) where
  calls : List (NewTensorCall DataType Shape)
  outcome : Outcome (Option T × Option (ConstantError E))

/-- The function `Constant` of `tensorflow.go`. The function `newTensor` and
the constants `tf.DataType_DT_STRING` and `TensorShapeScalar` are not among the
source files and are parameters; `newTensor` returns a pair `(*Tensor, error)`. -/
def Constant {DataType Shape T E : Type} (DT_STRING : DataType) (TensorShapeScalar : Shape)
    (newTensor : NewTensorCall DataType Shape → Option T × Option E) (value : Value) :
    ConstantRun DataType Shape T E :=
  match value with
  | Value.string v =>
    match encodeStrings [v] with
    | none => { calls := [], outcome := Outcome.panicked }
    | some buf =>
      match buf with
      | [] => { calls := [], outcome := Outcome.panicked }   -- &(buf[0])
      | _ :: _ =>
        let call : NewTensorCall DataType Shape :=
          { dataType := DT_STRING, shape := TensorShapeScalar, data := buf, size := buf.length }
        -- t, err := newTensor(...)
        let r := newTensor call
        match r.2 with
        | some e =>
          { calls := [call], outcome := Outcome.returned (none, some (ConstantError.fromNewTensor e)) }
        | none => { calls := [call], outcome := Outcome.returned (r.1, none) }
  | Value.other typeName =>
    { calls := [],
      outcome := Outcome.returned
        (none, some (ConstantError.errorf (ascii "tensorflow: unsupported type " ++ typeName))) }

/-! ## Session.Run -/

/-- The struct `Tensor`: it wraps a native tensor handle in its field `tensor`. -/
structure Tensor (H : Type) where
  tensor : H
deriving DecidableEq

/-- The arguments `TF_Run_wrapper` receives: the session and the input-name,
input-value, output-name and target-name vectors. -/
structure RunCall (S H : Type) where
  session : S
  inputNames : List GoString
  inputValues : List H
  outputNames : List GoString
  targetNames : List GoString
deriving DecidableEq

/-- What `Session.Run` returns: the result slice and the error; `call` records
the arguments of the native run call. -/
structure RunResult (S H : Type) where
  call : RunCall S H
  result : List (Tensor H)
  err : Option GoString

/-- The loop `for k, v := range inputs`, over the entries in the order in
which the map yields them: `inputValues.Add(v.tensor); inputNames.Add(k)`. -/
def addInputs {H : Type} :
    List (GoString × Tensor H) → List GoString × List H → List GoString × List H
  | [], acc => acc
  | (k, v) :: rest, (names, values) => addInputs rest (names ++ [k], values ++ [v.tensor])

/-- The loop `for _, n := range xs { vec.Add(n) }`. -/
def addNames : List GoString → List GoString → List GoString
  | [], vec => vec
  | n :: rest, vec => addNames rest (vec ++ [n])

/-- The loop `for i := 0; i < outputValues.Size(); i++` that appends
`&Tensor{tensor: outputValues.Get(i)}` to `result`; `todo` counts the
iterations left. -/
def collectOutputs {H : Type} (outputValues : List H) :
    Nat → Nat → List (Tensor H) → List (Tensor H)
  | 0, _, result => result
  | todo + 1, i, result =>
    match outputValues.get? i with
    | some h => collectOutputs outputValues todo (i + 1) (result ++ [{ tensor := h }])
    | none => result

/-- The method `Session.Run` of `tensorflow.go`. The native `TF_Run_wrapper`
is a parameter: from its arguments it yields the content it leaves in the
output vector and the status it leaves. `inputs` lists the entries of the
input map in the order in which the map iteration yields them; a map value is
a `*Tensor` that is not nil. -/
def Run {S H : Type} (TF_Run_wrapper : RunCall S H → List H × TF_Status) (session : S)
    (inputs : List (GoString × Tensor H)) (outputs targets : List GoString) : RunResult S H :=
  let (inputNames, inputValues) := addInputs inputs ([], [])
  let outputNames := addNames outputs []
  let targetNames := addNames targets []
  let call : RunCall S H :=
    { session := session, inputNames := inputNames, inputValues := inputValues,
      outputNames := outputNames, targetNames := targetNames }
  let (outputValues, status) := TF_Run_wrapper call
  let result := collectOutputs outputValues outputValues.length 0 []
  { call := call, result := result, err := statusToError status }

/-! ## LoadSavedModel -/

/-- The native heap, as far as the scratch allocations of `LoadSavedModel` go:
`next` is the next fresh address, `live` the blocks now allocated, `freed` the
blocks released so far (latest first), `faults` the addresses passed to a
release while not allocated (a double or invalid free). -/
structure Heap where
  next : Nat
  live : List Nat
  freed : List Nat
  faults : List Nat
deriving DecidableEq

/-- A native allocation (`C.CString`, `C.CBytes`, `C.TF_NewBuffer`): a fresh
block. -/
def Heap.malloc (h : Heap) : Nat × Heap :=
  (h.next, { h with next := h.next + 1, live := h.next :: h.live })

/-- The release of a block, `C.free(p)`. -/
def Heap.free (h : Heap) (p : Nat) : Heap :=
  if p ∈ h.live then { h with live := h.live.erase p, freed := p :: h.freed }
  else { h with faults := p :: h.faults }

/-- Modelled from the spec: `TF_DeleteBuffer` of the native C API is not among
the source files. It releases the buffer handle, and the data behind it only
through the handle's deallocator, which `TF_NewBuffer` leaves null and
`LoadSavedModel` never sets: the data is released by the deferred `C.free`. -/
def TF_DeleteBuffer (h : Heap) (buffer : Nat) : Heap := h.free buffer

/-- A `*C.TF_Buffer` that is not nil: the handle and its fields `data` and
`length`. -/
structure TFBuffer where
  handle : Nat
  data : Nat
  length : Nat
deriving DecidableEq

/-- The arguments of the native `TF_LoadSessionFromSavedModel`, with the text
behind the C strings and the heap at the moment of the call. -/
structure LoadCall (O G : Type) where
  cOpt : O
  runOptions : Option TFBuffer
  cExportDir : Nat
  cTags : List Nat
  ntags : Nat
  graph : G
  metaGraph : Option TFBuffer
  /-- The text `C.CString` copied into the block `cExportDir`. -/
  exportDirText : GoString
  /-- The texts `C.CString` copied into the blocks `cTags`, in order. -/
  tagTexts : List GoString
  heap : Heap

/-- The struct `Session` of `saved_model.go`'s package: it wraps the native
session in its field `c`. -/
structure NativeSession (S : Type) where
  c : S
deriving DecidableEq

/-- The struct `SavedModel`. -/
structure SavedModel (S G : Type) where
  Session : NativeSession S
  Graph : G
deriving DecidableEq

/-- An error `LoadSavedModel` can return: the one `options.c()` returned, or
the one `status.Err()` made from a status. -/
inductive LoadError (E : Type) where
  | fromOptions (err : E)
  | fromStatus (code : Int) (message : GoString)
deriving DecidableEq

/-- Modelled from the spec: the method `status.Err()` is not among the source
files. By the spec's status bridge, code `0` gives no error and any other code
an error carrying the code and the message. -/
def statusErr {E : Type} (status : TF_Status) : Option (LoadError E) :=
  if status.code ≠ 0 then some (LoadError.fromStatus status.code status.message) else none

/-- One run of `LoadSavedModel`: the heap it leaves, the native load call it
made (if it got that far), how often `doneOpt` ran, and how it ended, the
returned pair being `(*SavedModel, error)`. -/
structure LoadRun (O S G E : Type) where
  heap : Heap
  call : Option (LoadCall O G)
  doneOpt : Nat
  outcome : Outcome (Option (SavedModel S G) × Option (LoadError E))

/-- The loop `for i := range tags { cTags[i] = C.CString(tags[i]) }`. -/
def allocTags : List GoString → Heap → List Nat × Heap
  | [], h => ([], h)
  | _ :: rest, h =>
    let (p, h) := h.malloc
    let (ps, h) := allocTags rest h
    (p :: ps, h)

/-- The loop `for i := range cTags { C.free(unsafe.Pointer(cTags[i])) }`. -/
def freeTags : List Nat → Heap → Heap
  | [], h => h
  | p :: rest, h => freeTags rest (h.free p)

/-- The block `if x != nil { data := C.CBytes(*x); defer C.free(data);
buf = C.TF_NewBuffer(); ...; defer C.TF_DeleteBuffer(buf) }`: the buffer, the
calls it defers (the one deferred last comes first), and the heap. -/
def marshalBuffer (x : Option (List UInt8)) (h : Heap) :
    Option TFBuffer × List (Heap → Heap) × Heap :=
  match x with
  | some bytes =>
    let (data, h) := h.malloc
    let (handle, h) := h.malloc
    (some { handle := handle, data := data, length := bytes.length },
      [fun h => TF_DeleteBuffer h handle, fun h => h.free data], h)
  | none => (none, [], h)

/-- Running the deferred calls at the end of the function, the one deferred
last first. -/
def runDeferred : List (Heap → Heap) → Heap → Heap
  | [], h => h
  | f :: rest, h => runDeferred rest (f h)

/-- The function `LoadSavedModel` of `saved_model.go`. Parameters for what is
not among the source files: `optC` is what `options.c()` returns (the native
options and the error, `doneOpt` being counted), `graph` what `NewGraph()`
returns, `load` the native `TF_LoadSessionFromSavedModel`, yielding the native
session and the status it leaves. `runOptions` and `metaGraph` are `none` for a
nil pointer. -/
def LoadSavedModel {O S G E : Type} (optC : O × Option E) (graph : G)
    (load : LoadCall O G → S × TF_Status)
    (exportDir : GoString) (tags : List GoString)
    (runOptions metaGraph : Option (List UInt8)) (h : Heap) : LoadRun O S G E :=
  let (cOpt, err) := optC
  -- defer doneOpt()
  match err with
  | some e =>
    { heap := h, call := none, doneOpt := 1,
      outcome := Outcome.returned (none, some (LoadError.fromOptions e)) }
  | none =>
    let (cExportDir, h) := h.malloc
    let (cTags, h) := allocTags tags h
    let (tfRunOptions, deferred1, h) := marshalBuffer runOptions h
    let (tfMetaGraph, deferred2, h) := marshalBuffer metaGraph h
    let deferred := deferred2 ++ deferred1
    match cTags with
    | [] =>
      -- &cTags[0]: index out of range; the deferred calls run while panicking
      { heap := runDeferred deferred h, call := none, doneOpt := 1, outcome := Outcome.panicked }
    | _ :: _ =>
      let call : LoadCall O G :=
        { cOpt := cOpt, runOptions := tfRunOptions, cExportDir := cExportDir, cTags := cTags,
          ntags := cTags.length, graph := graph, metaGraph := tfMetaGraph,
          exportDirText := exportDir, tagTexts := tags, heap := h }
      let (cSess, status) := load call
      let h := freeTags cTags h
      let h := h.free cExportDir
      match statusErr status with
      | some e =>
        { heap := runDeferred deferred h, call := some call, doneOpt := 1,
          outcome := Outcome.returned (none, some e) }
      | none =>
        { heap := runDeferred deferred h, call := some call, doneOpt := 1,
          outcome := Outcome.returned (some { Session := { c := cSess }, Graph := graph }, none) }

/-! ## Theorems -/

theorem le64_length (v : Nat) : (le64 v).length = 8 := rfl

theorem sliceFrom_append {A B : List UInt8} {p : Nat} (h : p = A.length) :
    sliceFrom (A ++ B) p = some B := by
  subst h
  simp [sliceFrom]

theorem storeFrom_append {A B : List UInt8} {p : Nat} (h : p = A.length) (w : List UInt8) :
    storeFrom (A ++ B) p w = A ++ w := by
  subst h
  simp [storeFrom]

theorem PutUint64_append {X R : List UInt8} (h : X.length = 8) (v : Nat) :
    PutUint64 (X ++ R) v = some (le64 v ++ R) := by
  have hd : (X ++ R).drop 8 = R := by
    rw [← h]; simp
  have hl : ¬ (X ++ R).length < 8 := by
    simp [h]
  simp only [PutUint64, hl, if_false, hd]

theorem copy_append {X R src : List UInt8} (h : X.length = src.length) :
    copy (X ++ R) src = (src ++ R, src.length) := by
  have hm : min (X ++ R).length src.length = src.length := by
    simp [h]
  have hd : (X ++ R).drop src.length = R := by
    rw [← h]; simp
  simp only [copy, hm, hd, List.take_length]

theorem split_length {Z : List UInt8} {a b : Nat} (h : Z.length = a + b) :
    ∃ X Y, Z = X ++ Y ∧ X.length = a ∧ Y.length = b :=
  ⟨Z.take a, Z.drop a, (List.take_append_drop a Z).symm, by simp [h], by simp [h]⟩

theorem encodeLoop_inv (dataPos : Nat) :
    ∀ (rest : List GoString) (i offset : Nat) (T Z1 D Z2 : List UInt8),
      T.length = i * 8 → Z1.length = 8 * rest.length → T.length + Z1.length = dataPos →
      D.length = offset → Z2.length = (dataOf rest).length →
      encodeLoop dataPos i rest (T ++ Z1 ++ D ++ Z2) offset
        = some (T ++ tableFrom offset rest ++ D ++ dataOf rest) := by
  intro rest
  induction rest with
  | nil =>
    intro i offset T Z1 D Z2 _ h1 _ _ h2
    have e1 : Z1 = [] := List.length_eq_zero.mp (by simpa using h1)
    have e2 : Z2 = [] := List.length_eq_zero.mp (by simpa [dataOf] using h2)
    subst e1 e2
    simp [encodeLoop, tableFrom, dataOf]
  | cons s rest ih =>
    intro i offset T Z1 D Z2 hT h1 hpos hD h2
    obtain ⟨X, Z1r, rfl, hX, hZ1r⟩ :=
      split_length (a := 8) (b := 8 * rest.length) (by simpa [Nat.mul_succ, Nat.add_comm] using h1)
    have h2' : Z2.length = (EncodeVarint (uint64 s.length)).length + (s.length + (dataOf rest).length) := by
      simpa [dataOf, Nat.add_assoc] using h2
    obtain ⟨V, Z2a, rfl, hV, hZ2a⟩ := split_length h2'
    obtain ⟨S, Z2r, rfl, hS, hZ2r⟩ := split_length hZ2a
    have hT8 : (T ++ le64 (uint64 offset)).length = (i + 1) * 8 := by
      simp [le64_length, hT]; omega
    have hpos' : (T ++ le64 (uint64 offset)).length + Z1r.length = dataPos := by
      simp only [List.length_append, le64_length] at hpos ⊢; omega
    have hD' : (D ++ EncodeVarint (uint64 s.length) ++ s).length
        = offset + (EncodeVarint (uint64 s.length)).length + s.length := by
      simp [hD, Nat.add_assoc]
    have key := ih (i + 1) (offset + (EncodeVarint (uint64 s.length)).length + s.length)
      (T ++ le64 (uint64 offset)) Z1r (D ++ EncodeVarint (uint64 s.length) ++ s) Z2r
      hT8 hZ1r hpos' hD' hZ2r
    -- the accesses of one iteration, on the buffer in right-nested form
    have s1 : sliceFrom (T ++ (X ++ (Z1r ++ (D ++ (V ++ (S ++ Z2r)))))) (i * 8)
        = some (X ++ (Z1r ++ (D ++ (V ++ (S ++ Z2r))))) := sliceFrom_append hT.symm
    have s2 : storeFrom (T ++ (X ++ (Z1r ++ (D ++ (V ++ (S ++ Z2r)))))) (i * 8)
        (le64 (uint64 offset) ++ (Z1r ++ (D ++ (V ++ (S ++ Z2r)))))
        = T ++ (le64 (uint64 offset) ++ (Z1r ++ (D ++ (V ++ (S ++ Z2r))))) :=
      storeFrom_append hT.symm _
    have s3 : ∀ W : List UInt8, sliceFrom (T ++ (le64 (uint64 offset) ++ (Z1r ++ (D ++ W)))) dataPos
        = some (D ++ W) := by
      intro W
      have e : T ++ (le64 (uint64 offset) ++ (Z1r ++ (D ++ W)))
          = (T ++ le64 (uint64 offset) ++ Z1r) ++ (D ++ W) := by simp
      rw [e]
      exact sliceFrom_append (by simp only [List.length_append] at hpos' ⊢; omega)
    have s4 : ∀ W : List UInt8, sliceFrom (D ++ W) offset = some W :=
      fun W => sliceFrom_append hD.symm
    have s5 : ∀ W W2 : List UInt8,
        storeFrom (T ++ (le64 (uint64 offset) ++ (Z1r ++ (D ++ W)))) (dataPos + offset) W2
        = T ++ (le64 (uint64 offset) ++ (Z1r ++ (D ++ W2))) := by
      intro W W2
      have e : T ++ (le64 (uint64 offset) ++ (Z1r ++ (D ++ W)))
          = (T ++ le64 (uint64 offset) ++ Z1r ++ D) ++ W := by simp
      rw [e, storeFrom_append (by simp only [List.length_append] at hpos' ⊢; omega)]
      simp
    have s6 : ∀ W : List UInt8,
        sliceFrom (D ++ (EncodeVarint (uint64 s.length) ++ W))
          (offset + (EncodeVarint (uint64 s.length)).length) = some W := by
      intro W
      rw [← List.append_assoc]
      exact sliceFrom_append (by simp [hD])
    have s7 : ∀ W W2 : List UInt8,
        storeFrom (T ++ (le64 (uint64 offset) ++ (Z1r ++ (D ++ (EncodeVarint (uint64 s.length) ++ W)))))
          (dataPos + (offset + (EncodeVarint (uint64 s.length)).length)) W2
        = T ++ (le64 (uint64 offset) ++ (Z1r ++ (D ++ (EncodeVarint (uint64 s.length) ++ W2)))) := by
      intro W W2
      have e : T ++ (le64 (uint64 offset) ++ (Z1r ++ (D ++ (EncodeVarint (uint64 s.length) ++ W))))
          = (T ++ le64 (uint64 offset) ++ Z1r ++ D ++ EncodeVarint (uint64 s.length)) ++ W := by simp
      rw [e, storeFrom_append (by simp only [List.length_append] at hpos' ⊢; omega)]
      simp
    simp only [List.append_assoc] at key ⊢
    simp only [encodeLoop, s1, PutUint64_append hX, s2, s3, s4, copy_append hV, s5, s6,
      copy_append hS, s7, Option.bind_eq_bind, Option.some_bind, Option.pure_def]
    rw [key]
    simp [tableFrom, dataOf, Nat.add_assoc]

theorem dataOf_length_cons (s : GoString) (rest : List GoString) :
    (dataOf (s :: rest)).length
      = (EncodeVarint (uint64 s.length)).length + s.length + (dataOf rest).length := by
  simp [dataOf, Nat.add_assoc]

theorem foldl_size (input : List GoString) (acc : Nat) :
    input.foldl
      (fun size s => size + 8 + s.length + (EncodeVarint (uint64 s.length)).length) acc
      = acc + 8 * input.length + (dataOf input).length := by
  induction input generalizing acc with
  | nil => simp [dataOf]
  | cons s rest ih =>
    rw [List.foldl_cons, ih, dataOf_length_cons, List.length_cons]
    omega

theorem encodedSize_eq (input : List GoString) :
    encodedSize input = 8 * input.length + (dataOf input).length := by
  simp [encodedSize, foldl_size]

/-- The buffer `encodeStrings` returns: it does not panic, and the buffer is
the table the loop writes followed by the entries the loop writes. -/
theorem encodeStrings_eq (input : List GoString) :
    encodeStrings input = some (tableFrom 0 input ++ dataOf input) := by
  have hsz := encodedSize_eq input
  have hrep : List.replicate (encodedSize input) (0 : UInt8)
      = [] ++ List.replicate (8 * input.length) 0 ++ [] ++ List.replicate (dataOf input).length 0 := by
    rw [hsz, List.replicate_add]; simp
  have hs : sliceFrom (List.replicate (encodedSize input) (0 : UInt8)) (8 * input.length)
      = some (List.replicate (dataOf input).length 0) := by
    rw [hsz, List.replicate_add]
    exact sliceFrom_append (by simp)
  have key := encodeLoop_inv (8 * input.length) input 0 0 [] (List.replicate (8 * input.length) 0) []
    (List.replicate (dataOf input).length 0) (by simp) (by simp) (by simp) (by simp) (by simp)
  simp only [encodeStrings, hs, Option.bind_eq_bind, Option.some_bind]
  rw [hrep, key]
  simp

/-- The layout of the specification's example `["ab","c"]`: the offsets 0 and
3, then `0x02,'a','b'` and `0x01,'c'` from byte 16 on. -/
theorem encodeStrings_example :
    encodeStrings [ascii "ab", ascii "c"]
      = some [0, 0, 0, 0, 0, 0, 0, 0, 3, 0, 0, 0, 0, 0, 0, 0, 2, 97, 98, 1, 99] := by
  decide

theorem tableFrom_length (offset : Nat) (input : List GoString) :
    (tableFrom offset input).length = 8 * input.length := by
  induction input generalizing offset with
  | nil => simp [tableFrom]
  | cons s rest ih => simp [tableFrom, ih, le64_length]; omega

theorem or_high_bit : ∀ y, y < 128 → 128 ||| y = 128 + y := by decide

theorem continuation_byte (x : Nat) :
    (UInt8.ofNat (0x80 ||| (x &&& 0x7F))).toNat = 128 + x % 128 := by
  have h1 : x &&& 0x7F = x % 128 := Nat.and_pow_two_sub_one_eq_mod x 7
  have h2 : x % 128 < 128 := Nat.mod_lt _ (by decide)
  rw [h1, or_high_bit _ h2]
  exact UInt8.toNat_ofNat_of_lt (by simp [UInt8.size]; omega)

theorem final_byte (x : Nat) (h : x < 128) : (UInt8.ofNat x).toNat = x :=
  UInt8.toNat_ofNat_of_lt (by simp [UInt8.size]; omega)

theorem decodeVarint_varintLoop (slots : Nat) :
    ∀ (x : Nat) (rest : List UInt8), x < 128 ^ (slots + 1) →
      decodeVarint (varintLoop slots x ++ rest) = some (x, rest) := by
  induction slots with
  | zero =>
    intro x rest hx
    have hx' : x < 128 := by simpa using hx
    simp [varintLoop, decodeVarint, final_byte x hx', hx']
  | succ k ih =>
    intro x rest hx
    by_cases hbig : x > 127
    · have hdiv : x >>> 7 < 128 ^ (k + 1) := by
        rw [Nat.shiftRight_eq_div_pow]
        have : x < 2 ^ 7 * 128 ^ (k + 1) := by
          rw [pow_succ] at hx; omega
        exact Nat.div_lt_of_lt_mul this
      have hrec := ih (x >>> 7) rest hdiv
      have hsh : x >>> 7 = x / 128 := by rw [Nat.shiftRight_eq_div_pow]
      simp only [varintLoop, hbig, if_true, List.cons_append, decodeVarint, continuation_byte, hrec,
        Option.map_some']
      have hnot : ¬ 128 + x % 128 < 128 := by omega
      simp only [hnot, if_false, hsh]
      congr 2
      omega
    · have hx' : x < 128 := by omega
      simp [varintLoop, hbig, decodeVarint, final_byte x hx', hx']

theorem decodeVarint_EncodeVarint (x : Nat) (hx : x < 2 ^ 64) (rest : List UInt8) :
    decodeVarint (EncodeVarint x ++ rest) = some (x, rest) := by
  apply decodeVarint_varintLoop
  have : (2 : Nat) ^ 64 ≤ 128 ^ (9 + 1) := by norm_num
  omega

theorem toNat_ofNat_mod (w : Nat) : (UInt8.ofNat w).toNat = w % 256 := rfl

theorem littleEndianValue_le64 (v : Nat) : littleEndianValue (le64 v) = v % 2 ^ 64 := by
  simp only [le64, littleEndianValue, toNat_ofNat_mod, Nat.shiftRight_eq_div_pow]
  norm_num
  omega

theorem uint64_of_lt {n : Nat} (h : n < 2 ^ 64) : uint64 n = n := Nat.mod_eq_of_lt h

theorem length_le_dataOf {input : List GoString} {s : GoString} (hs : s ∈ input) :
    s.length ≤ (dataOf input).length := by
  induction input with
  | nil => cases hs
  | cons t rest ih =>
    rw [dataOf_length_cons]
    rcases List.mem_cons.mp hs with h | h
    · subst h; omega
    · have := ih h; omega

theorem lengths_fit {input : List GoString} (h : encodedSize input < 2 ^ 63) :
    ∀ s ∈ input, s.length < 2 ^ 64 := by
  intro s hs
  have h1 := length_le_dataOf hs
  have h2 := encodedSize_eq input
  omega

theorem dataOf_eq_specData {input : List GoString} (h : ∀ s ∈ input, s.length < 2 ^ 64) :
    dataOf input = specData input := by
  induction input with
  | nil => rfl
  | cons s rest ih =>
    have hs : uint64 s.length = s.length := uint64_of_lt (h s (List.mem_cons_self _ _))
    have hr := ih (fun t ht => h t (List.mem_cons_of_mem _ ht))
    simp only [dataOf, hs, hr, specData, specEntry, List.map_cons, List.foldr_cons,
      List.append_assoc]

theorem specData_length (input : List GoString) :
    (specData input).length = (input.map specEntryLen).sum := by
  induction input with
  | nil => rfl
  | cons s rest ih =>
    have : specData (s :: rest) = specEntry s ++ specData rest := rfl
    rw [this, List.length_append, ih]
    simp [specEntry, specEntryLen]

theorem specOffset_le (input : List GoString) (i : Nat) :
    specOffset input i ≤ (input.map specEntryLen).sum := by
  have h := List.sum_take_add_sum_drop (input.map specEntryLen) i
  rw [← List.map_take] at h
  unfold specOffset
  omega

theorem tableFrom_block {input : List GoString} (h : ∀ s ∈ input, s.length < 2 ^ 64) :
    ∀ (offset i : Nat) (R : List UInt8), i < input.length →
      ((tableFrom offset input ++ R).drop (8 * i)).take 8
        = le64 (uint64 (offset + specOffset input i)) := by
  induction input with
  | nil => intro offset i R hi; simp at hi
  | cons s rest ih =>
    intro offset i R hi
    have hs : uint64 s.length = s.length := uint64_of_lt (h s (List.mem_cons_self _ _))
    cases i with
    | zero =>
      simp only [tableFrom, Nat.mul_zero, List.drop_zero, List.append_assoc, specOffset,
        List.take_zero, List.map_nil, List.sum_nil, Nat.add_zero]
      rw [List.take_append_of_le_length (by simp [le64_length])]
      exact List.take_of_length_le (by simp [le64_length])
    | succ j =>
      have hj : j < rest.length := by simpa using hi
      have hr := ih (fun t ht => h t (List.mem_cons_of_mem _ ht))
        (offset + (EncodeVarint (uint64 s.length)).length + s.length) j R hj
      have hd : (tableFrom offset (s :: rest) ++ R).drop (8 * (j + 1))
          = (tableFrom (offset + (EncodeVarint (uint64 s.length)).length + s.length) rest ++ R).drop
              (8 * j) := by
        have e : 8 * (j + 1) = (le64 (uint64 offset)).length + 8 * j := by
          rw [le64_length]; omega
        simp only [tableFrom, List.append_assoc]
        rw [e, ← List.drop_drop, List.drop_left]
      rw [hd, hr, hs]
      congr 2
      simp [specOffset, specEntryLen]
      omega

theorem varintLoop_ne_nil (slots x : Nat) : ∃ c tl, varintLoop slots x = c :: tl := by
  cases slots with
  | zero => exact ⟨_, _, rfl⟩
  | succ k =>
    by_cases hbig : x > 127
    · simp only [varintLoop, hbig, if_true]
      exact ⟨_, _, rfl⟩
    · simp only [varintLoop, hbig, if_false]
      exact ⟨_, _, rfl⟩

theorem varintLoop_format (slots : Nat) :
    ∀ x : Nat, x < 128 ^ (slots + 1) →
      varintHighBits (varintLoop slots x) = true ∧ varintValue (varintLoop slots x) = x := by
  induction slots with
  | zero =>
    intro x hx
    have hx' : x < 128 := by simpa using hx
    simp only [varintLoop, varintHighBits, varintValue, final_byte x hx', decide_eq_true_eq]
    omega
  | succ k ih =>
    intro x hx
    by_cases hbig : x > 127
    · have hdiv : x >>> 7 < 128 ^ (k + 1) := by
        rw [Nat.shiftRight_eq_div_pow]
        have : x < 2 ^ 7 * 128 ^ (k + 1) := by
          rw [pow_succ] at hx; omega
        exact Nat.div_lt_of_lt_mul this
      obtain ⟨h1, h2⟩ := ih (x >>> 7) hdiv
      obtain ⟨c, tl, hc⟩ := varintLoop_ne_nil k (x >>> 7)
      have hsh : x >>> 7 = x / 128 := by rw [Nat.shiftRight_eq_div_pow]
      simp only [varintLoop, hbig, if_true]
      constructor
      · rw [hc] at h1 ⊢
        simp only [varintHighBits, continuation_byte, h1, Bool.and_true, decide_eq_true_eq]
        omega
      · simp only [varintValue, continuation_byte, h2]
        rw [hsh]
        omega
    · have hx' : x < 128 := by omega
      simp only [varintLoop, hbig, if_false, varintHighBits, varintValue, final_byte x hx',
        decide_eq_true_eq]
      omega

theorem EncodeVarint_format (x : Nat) (hx : x < 2 ^ 64) :
    varintHighBits (EncodeVarint x) = true ∧ varintValue (EncodeVarint x) = x := by
  apply varintLoop_format
  have : (2 : Nat) ^ 64 ≤ 128 ^ (9 + 1) := by norm_num
  omega

theorem dataOf_injective :
    ∀ a b : List GoString, (∀ s ∈ a, s.length < 2 ^ 64) → (∀ s ∈ b, s.length < 2 ^ 64) →
      a.length = b.length → dataOf a = dataOf b → a = b := by
  intro a
  induction a with
  | nil =>
    intro b _ _ hlen _
    cases b with
    | nil => rfl
    | cons t rest => simp at hlen
  | cons s ra ih =>
    intro b ha hb hlen h
    cases b with
    | nil => simp at hlen
    | cons t rb =>
      have hs := ha s (List.mem_cons_self _ _)
      have ht := hb t (List.mem_cons_self _ _)
      simp only [dataOf, uint64_of_lt hs, uint64_of_lt ht, List.append_assoc] at h
      have hdec := congrArg decodeVarint h
      rw [decodeVarint_EncodeVarint _ hs, decodeVarint_EncodeVarint _ ht] at hdec
      have hpair := Option.some.inj hdec
      have hl : s.length = t.length := congrArg Prod.fst hpair
      have hrest : s ++ dataOf ra = t ++ dataOf rb := congrArg Prod.snd hpair
      obtain ⟨e1, e2⟩ := List.append_inj hrest hl
      have := ih rb (fun u hu => ha u (List.mem_cons_of_mem _ hu))
        (fun u hu => hb u (List.mem_cons_of_mem _ hu)) (by simpa using hlen) e2
      rw [e1, this]

/-- C1: the first `8*N` bytes of `encodeStrings(in)` are the offset table: for
every `i < N` the bytes `[8*i, 8*i+8)` are the 8-byte little-endian encoding of
the sum over `j < i` of `varint_len(len(in[j])) + len(in[j])`. The size the
code computes is a Go `int`. -/
theorem encodeStrings_offset_table (input : List GoString)
    (hsize : encodedSize input < 2 ^ 63) (i : Nat) (hi : i < input.length) :
    ∃ out, encodeStrings input = some out ∧ 8 * input.length ≤ out.length ∧
      (out.drop (8 * i)).take 8 = le64 (specOffset input i) ∧
      ((out.drop (8 * i)).take 8).length = 8 ∧
      littleEndianValue ((out.drop (8 * i)).take 8) = specOffset input i := by
  have hfit := lengths_fit hsize
  have hoff : specOffset input i < 2 ^ 64 := by
    have h1 := specOffset_le input i
    have h2 := specData_length input
    rw [← dataOf_eq_specData hfit] at h2
    have h3 := encodedSize_eq input
    omega
  have hblock := tableFrom_block hfit 0 i (dataOf input) hi
  rw [Nat.zero_add, uint64_of_lt hoff] at hblock
  refine ⟨_, encodeStrings_eq input, ?_, hblock, ?_, ?_⟩
  · simp [tableFrom_length]
  · rw [hblock, le64_length]
  · rw [hblock, littleEndianValue_le64, Nat.mod_eq_of_lt hoff]

/-- C2: the bytes of `encodeStrings(in)` from index `8*N` to the end are the
concatenation, in list order, of one entry per string, each the varint of the
byte length (7 data bits per byte, high bit set on all but the final byte)
followed by the raw bytes; the total length is
`8*N + Σ (varint_len(len(in[i])) + len(in[i]))`. -/
theorem encodeStrings_data_part (input : List GoString)
    (hsize : encodedSize input < 2 ^ 63) :
    ∃ out, encodeStrings input = some out ∧
      out.drop (8 * input.length) = specData input ∧
      out.length = 8 * input.length + (input.map specEntryLen).sum ∧
      ∀ s ∈ input, varintHighBits (EncodeVarint s.length) = true ∧
        varintValue (EncodeVarint s.length) = s.length := by
  have hfit := lengths_fit hsize
  refine ⟨_, encodeStrings_eq input, ?_, ?_, ?_⟩
  · rw [← tableFrom_length 0 input, List.drop_left, dataOf_eq_specData hfit]
  · rw [List.length_append, tableFrom_length, dataOf_eq_specData hfit, specData_length]
  · intro s hs
    exact EncodeVarint_format _ (hfit s hs)

/-- C10: `encodeStrings` is injective on string lists of equal length. -/
theorem encodeStrings_injective (a b : List GoString)
    (ha : encodedSize a < 2 ^ 63) (hb : encodedSize b < 2 ^ 63)
    (hlen : a.length = b.length) (h : encodeStrings a = encodeStrings b) : a = b := by
  rw [encodeStrings_eq, encodeStrings_eq] at h
  have h' := Option.some.inj h
  have htl : (tableFrom 0 a).length = (tableFrom 0 b).length := by
    rw [tableFrom_length, tableFrom_length, hlen]
  exact dataOf_injective a b (lengths_fit ha) (lengths_fit hb) hlen (List.append_inj h' htl).2

/-- C1 at `["ab","c"]`, entry 1: the offset is 3. -/
theorem encodeStrings_offset_table_witness :
    ∃ out, encodeStrings [ascii "ab", ascii "c"] = some out ∧
      8 * [ascii "ab", ascii "c"].length ≤ out.length ∧
      (out.drop (8 * 1)).take 8 = le64 (specOffset [ascii "ab", ascii "c"] 1) ∧
      ((out.drop (8 * 1)).take 8).length = 8 ∧
      littleEndianValue ((out.drop (8 * 1)).take 8) = specOffset [ascii "ab", ascii "c"] 1 :=
  encodeStrings_offset_table [ascii "ab", ascii "c"] (by decide) 1 (by decide)

/-- C2 at `["ab","c"]`. -/
theorem encodeStrings_data_part_witness :
    ∃ out, encodeStrings [ascii "ab", ascii "c"] = some out ∧
      out.drop (8 * [ascii "ab", ascii "c"].length) = specData [ascii "ab", ascii "c"] ∧
      out.length = 8 * [ascii "ab", ascii "c"].length
        + ([ascii "ab", ascii "c"].map specEntryLen).sum ∧
      ∀ s ∈ [ascii "ab", ascii "c"], varintHighBits (EncodeVarint s.length) = true ∧
        varintValue (EncodeVarint s.length) = s.length :=
  encodeStrings_data_part [ascii "ab", ascii "c"] (by decide)

/-- C10 at two equal lists. -/
theorem encodeStrings_injective_witness : [ascii "ab", ascii "c"] = [ascii "ab", ascii "c"] :=
  encodeStrings_injective [ascii "ab", ascii "c"] [ascii "ab", ascii "c"]
    (by decide) (by decide) rfl rfl

theorem decimalValue_snoc (ds : List UInt8) (d : UInt8) :
    decimalValue (ds ++ [d]) = 10 * decimalValue ds + (d.toNat - 48) := by
  simp [decimalValue, List.foldl_append]

theorem decimalLoop_spec (fuel : Nat) :
    ∀ (n : Nat) (acc : List UInt8), n < fuel →
      ∃ D, decimalLoop fuel n acc = D ++ acc ∧ decimalValue D = n ∧ D ≠ [] ∧
        ∀ d ∈ D, 48 ≤ d.toNat ∧ d.toNat ≤ 57 := by
  induction fuel with
  | zero => intro n acc h; omega
  | succ k ih =>
    intro n acc hn
    have hd : (UInt8.ofNat (48 + n % 10)).toNat = 48 + n % 10 := by
      rw [toNat_ofNat_mod]; omega
    by_cases hz : n / 10 = 0
    · refine ⟨[UInt8.ofNat (48 + n % 10)], ?_, ?_, by simp, ?_⟩
      · simp [decimalLoop, hz]
      · simp only [decimalValue, List.foldl_cons, List.foldl_nil, hd]; omega
      · intro d hmem
        rw [List.mem_singleton.mp hmem, hd]; omega
    · obtain ⟨D, h1, h2, _, h4⟩ := ih (n / 10) (UInt8.ofNat (48 + n % 10) :: acc) (by omega)
      refine ⟨D ++ [UInt8.ofNat (48 + n % 10)], ?_, ?_, by simp, ?_⟩
      · simp only [decimalLoop, hz, if_false, h1, List.append_assoc, List.singleton_append]
      · rw [decimalValue_snoc, h2, hd]; omega
      · intro d hmem
        rcases List.mem_append.mp hmem with h | h
        · exact h4 d h
        · rw [List.mem_singleton.mp h, hd]; omega

theorem formatNat_spec (n : Nat) :
    decimalValue (formatNat n) = n ∧ formatNat n ≠ [] ∧
      ∀ d ∈ formatNat n, 48 ≤ d.toNat ∧ d.toNat ≤ 57 := by
  obtain ⟨D, h1, h2, h3, h4⟩ := decimalLoop_spec (n + 1) n [] (by omega)
  have : formatNat n = D := by simpa [formatNat] using h1
  rw [this]
  exact ⟨h2, h3, h4⟩

theorem formatNat_injective {n m : Nat} (h : formatNat n = formatNat m) : n = m := by
  rw [← (formatNat_spec n).1, ← (formatNat_spec m).1, h]

theorem formatNat_head (n : Nat) : ∃ d tl, formatNat n = d :: tl ∧ 48 ≤ d.toNat := by
  obtain ⟨_, h2, h3⟩ := formatNat_spec n
  cases hf : formatNat n with
  | nil => exact absurd hf h2
  | cons d tl =>
    exact ⟨d, tl, rfl, (h3 d (by rw [hf]; exact List.mem_cons_self _ _)).1⟩

theorem formatInt_injective {a b : Int} (h : formatInt a = formatInt b) : a = b := by
  cases a with
  | ofNat n =>
    cases b with
    | ofNat m => rw [formatNat_injective h]
    | negSucc m =>
      obtain ⟨d, tl, hd, hge⟩ := formatNat_head n
      simp only [formatInt, hd, List.cons.injEq] at h
      have : d.toNat = 45 := by rw [h.1]; rfl
      omega
  | negSucc n =>
    cases b with
    | ofNat m =>
      obtain ⟨d, tl, hd, hge⟩ := formatNat_head m
      simp only [formatInt, hd, List.cons.injEq] at h
      have : d.toNat = 45 := by rw [← h.1]; rfl
      omega
    | negSucc m =>
      simp only [formatInt, List.cons.injEq, true_and] at h
      have := formatNat_injective h
      have e : n = m := by omega
      rw [e]

theorem colon_not_mem_formatInt (a : Int) : (58 : UInt8) ∉ formatInt a := by
  have key : ∀ n, (58 : UInt8) ∉ formatNat n := by
    intro n hmem
    have := (formatNat_spec n).2.2 58 hmem
    have h58 : (58 : UInt8).toNat = 58 := rfl
    omega
  cases a with
  | ofNat n => exact key n
  | negSucc n =>
    intro hmem
    rcases List.mem_cons.mp hmem with h | h
    · exact absurd h (by decide)
    · exact key _ h

theorem split_at_first {x : UInt8} :
    ∀ (A B R1 R2 : List UInt8), x ∉ A → x ∉ B → A ++ x :: R1 = B ++ x :: R2 →
      A = B ∧ R1 = R2 := by
  intro A
  induction A with
  | nil =>
    intro B R1 R2 _ hB h
    cases B with
    | nil => exact ⟨rfl, by simpa using h⟩
    | cons b B' =>
      simp only [List.nil_append, List.cons_append, List.cons.injEq] at h
      exact absurd (h.1 ▸ List.mem_cons_self _ _) hB
  | cons a A' ih =>
    intro B R1 R2 hA hB h
    cases B with
    | nil =>
      simp only [List.nil_append, List.cons_append, List.cons.injEq] at h
      exact absurd (h.1 ▸ List.mem_cons_self _ _) hA
    | cons b B' =>
      simp only [List.cons_append, List.cons.injEq] at h
      obtain ⟨e1, e2⟩ := ih B' R1 R2 (fun hm => hA (List.mem_cons_of_mem _ hm))
        (fun hm => hB (List.mem_cons_of_mem _ hm)) h.2
      exact ⟨by rw [h.1, e1], e2⟩

theorem statusToError_eq_none_iff (status : TF_Status) :
    statusToError status = none ↔ status.code = 0 := by
  by_cases h : status.code = 0 <;> simp [statusToError, h]

/-- C3: `statusToError` returns nil if and only if the code is 0; for a
non-zero code the error text is "tensorflow: <code>: <message>", with the code
in decimal and the message verbatim, and that text determines both the code
and the message. -/
theorem statusToError_spec (status : TF_Status) :
    (statusToError status = none ↔ status.code = 0) ∧
    (status.code ≠ 0 → statusToError status
        = some (ascii "tensorflow: " ++ formatInt status.code ++ ascii ": " ++ status.message)) ∧
    (status.code ≠ 0 → ∀ other : TF_Status,
        statusToError other = statusToError status →
          other.code = status.code ∧ other.message = status.message) := by
  refine ⟨statusToError_eq_none_iff status, ?_, ?_⟩
  · intro h
    simp [statusToError, h]
  · intro h other heq
    have ho : other.code ≠ 0 := by
      intro hz
      simp [statusToError, hz, h] at heq
    simp only [statusToError, ho, h, ne_eq, not_false_eq_true, if_true, Option.some.injEq,
      List.append_assoc] at heq
    have h1 := List.append_cancel_left heq
    have hsep : ascii ": " = (58 : UInt8) :: [32] := by decide
    rw [hsep] at h1
    simp only [List.cons_append, List.nil_append] at h1
    have h2 := split_at_first _ _ _ _ (colon_not_mem_formatInt _)
      (colon_not_mem_formatInt _) h1
    exact ⟨formatInt_injective h2.1, by simpa using h2.2⟩

/-! ### Constant -/

theorem le64_zero : le64 (uint64 0) = List.replicate 8 0 := by decide

theorem encodeStrings_single (v : GoString) (hv : v.length < 2 ^ 64) :
    encodeStrings [v] = some (List.replicate 8 0 ++ EncodeVarint v.length ++ v) := by
  rw [encodeStrings_eq]
  simp [tableFrom, dataOf, le64_zero, uint64_of_lt hv]

theorem Constant_string_eq {DataType Shape T E : Type} (DT_STRING : DataType)
    (TensorShapeScalar : Shape)
    (newTensor : NewTensorCall DataType Shape → Option T × Option E)
    (v : GoString) (buf : List UInt8) (henc : encodeStrings [v] = some buf) (hne : buf ≠ []) :
    Constant DT_STRING TensorShapeScalar newTensor (Value.string v)
      = (match (newTensor { dataType := DT_STRING, shape := TensorShapeScalar, data := buf,
                            size := buf.length }).2 with
         | some e =>
           { calls := [{ dataType := DT_STRING, shape := TensorShapeScalar, data := buf,
                         size := buf.length }],
             outcome := Outcome.returned (none, some (ConstantError.fromNewTensor e)) }
         | none =>
           { calls := [{ dataType := DT_STRING, shape := TensorShapeScalar, data := buf,
                         size := buf.length }],
             outcome := Outcome.returned
               ((newTensor { dataType := DT_STRING, shape := TensorShapeScalar, data := buf,
                             size := buf.length }).1, none) }) := by
  cases buf with
  | nil => exact absurd rfl hne
  | cons b rest => simp only [Constant, henc]

/-- C4: for a value whose dynamic type is not `string`, `Constant` returns no
tensor and the error "tensorflow: unsupported type <type name>", which carries
the type's name, and does not call `newTensor`; for a string value it never
returns an error of its own making. -/
theorem Constant_unsupported_type {DataType Shape T E : Type} (DT_STRING : DataType)
    (TensorShapeScalar : Shape)
    (newTensor : NewTensorCall DataType Shape → Option T × Option E) :
    (∀ typeName : GoString,
      (Constant DT_STRING TensorShapeScalar newTensor (Value.other typeName)).calls = [] ∧
      (Constant DT_STRING TensorShapeScalar newTensor (Value.other typeName)).outcome
        = Outcome.returned (none, some (ConstantError.errorf
            (ascii "tensorflow: unsupported type " ++ typeName)))) ∧
    (∀ name1 name2 : GoString,
      (Constant DT_STRING TensorShapeScalar newTensor (Value.other name1)).outcome
        = (Constant DT_STRING TensorShapeScalar newTensor (Value.other name2)).outcome →
      name1 = name2) ∧
    (∀ (v : GoString) (t : Option T) (text : GoString),
      (Constant DT_STRING TensorShapeScalar newTensor (Value.string v)).outcome
        ≠ Outcome.returned (t, some (ConstantError.errorf text))) := by
  refine ⟨fun typeName => ⟨rfl, rfl⟩, ?_, ?_⟩
  · intro name1 name2 h
    simp only [Constant, Outcome.returned.injEq, Prod.mk.injEq, true_and, Option.some.injEq,
      ConstantError.errorf.injEq] at h
    exact List.append_cancel_left h
  · intro v t text
    have hne : tableFrom 0 [v] ++ dataOf [v] ≠ [] := by simp [tableFrom, le64]
    rw [Constant_string_eq DT_STRING TensorShapeScalar newTensor v _ (encodeStrings_eq [v]) hne]
    cases (newTensor { dataType := DT_STRING, shape := TensorShapeScalar,
                       data := tableFrom 0 [v] ++ dataOf [v],
                       size := (tableFrom 0 [v] ++ dataOf [v]).length }).2 <;> simp

/-- C5: for a string `s`, `Constant` hands `newTensor` the buffer
`encodeStrings([s])`, which is 8 zero bytes (one offset, 0) followed by
`varint(len(s))` and the bytes of `s`, with the declared length
`8 + varint_len(len(s)) + len(s)`, the data type `DT_STRING` and the scalar
shape, in a single call; it returns what `newTensor` returns. The size is a
Go `int`. -/
theorem Constant_string {DataType Shape T E : Type} (DT_STRING : DataType)
    (TensorShapeScalar : Shape)
    (newTensor : NewTensorCall DataType Shape → Option T × Option E)
    (s : GoString) (hs : encodedSize [s] < 2 ^ 63) :
    ∃ buf, encodeStrings [s] = some buf ∧
      buf = List.replicate 8 0 ++ EncodeVarint s.length ++ s ∧
      buf.length = 8 + (EncodeVarint s.length).length + s.length ∧
      (Constant DT_STRING TensorShapeScalar newTensor (Value.string s)).calls
        = [{ dataType := DT_STRING, shape := TensorShapeScalar, data := buf,
             size := 8 + (EncodeVarint s.length).length + s.length }] ∧
      (Constant DT_STRING TensorShapeScalar newTensor (Value.string s)).outcome
        = (match (newTensor { dataType := DT_STRING, shape := TensorShapeScalar, data := buf,
                              size := buf.length }).2 with
           | some e => Outcome.returned (none, some (ConstantError.fromNewTensor e))
           | none => Outcome.returned
              ((newTensor { dataType := DT_STRING, shape := TensorShapeScalar, data := buf,
                            size := buf.length }).1, none)) := by
  have hv : s.length < 2 ^ 64 := lengths_fit hs s (List.mem_cons_self _ _)
  have henc := encodeStrings_single s hv
  have hlen : (List.replicate 8 (0 : UInt8) ++ EncodeVarint s.length ++ s).length
      = 8 + (EncodeVarint s.length).length + s.length := by
    simp only [List.length_append, List.length_replicate]
  have hne : List.replicate 8 (0 : UInt8) ++ EncodeVarint s.length ++ s ≠ [] := by
    simp [List.replicate]
  refine ⟨_, henc, rfl, hlen, ?_, ?_⟩
  · rw [Constant_string_eq DT_STRING TensorShapeScalar newTensor s _ henc hne, ← hlen]
    cases (newTensor { dataType := DT_STRING, shape := TensorShapeScalar,
                       data := List.replicate 8 0 ++ EncodeVarint s.length ++ s,
                       size := (List.replicate 8 (0 : UInt8) ++ EncodeVarint s.length ++ s).length }).2
      <;> rfl
  · rw [Constant_string_eq DT_STRING TensorShapeScalar newTensor s _ henc hne]
    cases (newTensor { dataType := DT_STRING, shape := TensorShapeScalar,
                       data := List.replicate 8 0 ++ EncodeVarint s.length ++ s,
                       size := (List.replicate 8 (0 : UInt8) ++ EncodeVarint s.length ++ s).length }).2
      <;> rfl

/-! ### Session.Run -/

theorem addInputs_eq {H : Type} (inputs : List (GoString × Tensor H)) :
    ∀ (names : List GoString) (values : List H),
      addInputs inputs (names, values)
        = (names ++ inputs.map Prod.fst, values ++ inputs.map (fun p => p.2.tensor)) := by
  induction inputs with
  | nil => intro names values; simp [addInputs]
  | cons p rest ih =>
    intro names values
    obtain ⟨k, v⟩ := p
    simp [addInputs, ih]

theorem addNames_eq (xs : List GoString) :
    ∀ vec : List GoString, addNames xs vec = vec ++ xs := by
  induction xs with
  | nil => intro vec; simp [addNames]
  | cons n rest ih => intro vec; simp [addNames, ih]

theorem collectOutputs_eq {H : Type} (outputValues : List H) :
    ∀ (todo i : Nat) (result : List (Tensor H)), i + todo = outputValues.length →
      collectOutputs outputValues todo i result
        = result ++ (outputValues.drop i).map (fun h => { tensor := h }) := by
  intro todo
  induction todo with
  | zero =>
    intro i result hi
    have : outputValues.drop i = [] := List.drop_eq_nil_of_le (by omega)
    simp [collectOutputs, this]
  | succ k ih =>
    intro i result hi
    have hlt : i < outputValues.length := by omega
    have hget : outputValues.get? i = some (outputValues.get ⟨i, hlt⟩) := List.get?_eq_get hlt
    have hdrop : outputValues.drop i = outputValues.get ⟨i, hlt⟩ :: outputValues.drop (i + 1) := by
      simp
    simp only [collectOutputs, hget]
    rw [ih (i + 1) _ (by omega), hdrop]
    simp only [List.map_cons, List.append_assoc, List.singleton_append]

/-- What `Run` passes to the native call and what it returns. -/
theorem Run_eq {S H : Type} (TF_Run_wrapper : RunCall S H → List H × TF_Status) (session : S)
    (inputs : List (GoString × Tensor H)) (outputs targets : List GoString) :
    Run TF_Run_wrapper session inputs outputs targets
      = { call := { session := session, inputNames := inputs.map Prod.fst,
                    inputValues := inputs.map (fun p => p.2.tensor),
                    outputNames := outputs, targetNames := targets },
          result := (TF_Run_wrapper
                      { session := session, inputNames := inputs.map Prod.fst,
                        inputValues := inputs.map (fun p => p.2.tensor),
                        outputNames := outputs, targetNames := targets }).1.map
                      (fun h => { tensor := h }),
          err := statusToError
                   (TF_Run_wrapper
                      { session := session, inputNames := inputs.map Prod.fst,
                        inputValues := inputs.map (fun p => p.2.tensor),
                        outputNames := outputs, targetNames := targets }).2 } := by
  rcases hres : TF_Run_wrapper
      { session := session, inputNames := inputs.map Prod.fst,
        inputValues := inputs.map (fun p => p.2.tensor),
        outputNames := outputs, targetNames := targets } with ⟨outputValues, status⟩
  simp only [Run, addInputs_eq, addNames_eq, List.nil_append, hres]
  rw [collectOutputs_eq outputValues _ 0 [] (by omega)]
  simp

/-- C6: the fetch-name list passed to the native run call is `outputs` in the
given order and the target list is `targets` in order, for every iteration
order of the input map; the result sequence is the native output vector in
index order; so when the engine yields one value per fetch name, in order, a
value that depends on the feeds only as a set, the i-th result is the value of
`outputs[i]` for every iteration order of the input map. -/
theorem Run_output_order {S H : Type} (TF_Run_wrapper : RunCall S H → List H × TF_Status)
    (session : S) (inputs : List (GoString × Tensor H)) (outputs targets : List GoString) :
    (Run TF_Run_wrapper session inputs outputs targets).call.outputNames = outputs ∧
    (Run TF_Run_wrapper session inputs outputs targets).call.targetNames = targets ∧
    (Run TF_Run_wrapper session inputs outputs targets).call.inputNames
      = inputs.map Prod.fst ∧
    (Run TF_Run_wrapper session inputs outputs targets).call.inputValues
      = inputs.map (fun p => p.2.tensor) ∧
    (Run TF_Run_wrapper session inputs outputs targets).result
      = (TF_Run_wrapper (Run TF_Run_wrapper session inputs outputs targets).call).1.map
          (fun h => { tensor := h }) ∧
    (∀ inputs' : List (GoString × Tensor H), inputs'.Perm inputs →
      (Run TF_Run_wrapper session inputs' outputs targets).call.outputNames = outputs ∧
      (Run TF_Run_wrapper session inputs' outputs targets).call.targetNames = targets) ∧
    (∀ nodeValue : List (GoString × H) → GoString → H,
      (∀ c : RunCall S H,
        (TF_Run_wrapper c).1 = c.outputNames.map (nodeValue (c.inputNames.zip c.inputValues))) →
      (∀ f f' : List (GoString × H), f.Perm f' → nodeValue f = nodeValue f') →
      ∀ inputs' : List (GoString × Tensor H), inputs'.Perm inputs →
        (Run TF_Run_wrapper session inputs' outputs targets).result
          = outputs.map (fun name =>
              { tensor := nodeValue (inputs.map (fun p => (p.1, p.2.tensor))) name })) := by
  refine ⟨by rw [Run_eq], by rw [Run_eq], by rw [Run_eq], by rw [Run_eq], by rw [Run_eq],
    fun inputs' _ => ⟨by rw [Run_eq], by rw [Run_eq]⟩, ?_⟩
  intro nodeValue hengine hset inputs' hperm
  rw [Run_eq]
  simp only [hengine, List.map_map]
  have hzip : ∀ l : List (GoString × Tensor H),
      (l.map Prod.fst).zip (l.map (fun p => p.2.tensor))
        = l.map (fun p => (p.1, p.2.tensor)) := by
    intro l
    induction l with
    | nil => rfl
    | cons p rest ih => simp [ih]
  rw [hzip, hset _ _ (hperm.map _)]
  rfl

/-- C7, as amended: `Run` returns the error made from the status the native run call
left together with a result sequence that wraps, in index order, every element
the native call left in the output vector, whatever the status; with a
non-zero status the error is not nil, and the result sequence is empty exactly
when the native call left the output vector empty. -/
theorem Run_error_and_results {S H : Type} (TF_Run_wrapper : RunCall S H → List H × TF_Status)
    (session : S) (inputs : List (GoString × Tensor H)) (outputs targets : List GoString) :
    (Run TF_Run_wrapper session inputs outputs targets).err
      = statusToError
          (TF_Run_wrapper (Run TF_Run_wrapper session inputs outputs targets).call).2 ∧
    (Run TF_Run_wrapper session inputs outputs targets).result
      = (TF_Run_wrapper (Run TF_Run_wrapper session inputs outputs targets).call).1.map
          (fun h => { tensor := h }) ∧
    ((TF_Run_wrapper (Run TF_Run_wrapper session inputs outputs targets).call).2.code ≠ 0 →
      (Run TF_Run_wrapper session inputs outputs targets).err ≠ none) ∧
    ((Run TF_Run_wrapper session inputs outputs targets).result = [] ↔
      (TF_Run_wrapper (Run TF_Run_wrapper session inputs outputs targets).call).1 = []) := by
  refine ⟨by rw [Run_eq], by rw [Run_eq], ?_, ?_⟩
  · intro hcode
    rw [Run_eq] at hcode ⊢
    simp only at hcode ⊢
    intro hnone
    exact hcode ((statusToError_eq_none_iff _).mp hnone)
  · rw [Run_eq]
    simp

/-- C7 as stated fails: a native run call that leaves one tensor in the output
vector and the status code 3 makes `Run` return that tensor together with the
error. -/
theorem Run_results_alongside_error :
    (Run (fun _ : RunCall Unit Nat => ([7], { code := 3, message := ascii "failed" })) ()
        [] [ascii "a"] []).err = some (ascii "tensorflow: 3: failed") ∧
    (Run (fun _ : RunCall Unit Nat => ([7], { code := 3, message := ascii "failed" })) ()
        [] [ascii "a"] []).result = [{ tensor := 7 }] := by
  decide

/-- C8 fails on the code: with an empty tag list `LoadSavedModel` panics at
`&cTags[0]` and never makes the native load call. -/
theorem LoadSavedModel_empty_tags_panics {O S G E : Type} (cOpt : O) (graph : G)
    (load : LoadCall O G → S × TF_Status) (exportDir : GoString)
    (runOptions metaGraph : Option (List UInt8)) (h : Heap) :
    (LoadSavedModel (S := S) (E := E) (cOpt, none) graph load exportDir []
      runOptions metaGraph h).outcome = Outcome.panicked ∧
    (LoadSavedModel (S := S) (E := E) (cOpt, none) graph load exportDir []
      runOptions metaGraph h).call = none := by
  cases runOptions <;> cases metaGraph <;>
    simp [LoadSavedModel, allocTags, Heap.malloc, marshalBuffer]

/-! ### LoadSavedModel: the heap -/

theorem free_split (h : Heap) (A B : List Nat) (p : Nat)
    (hl : h.live = A ++ p :: B) (hp : p ∉ A) :
    h.free p = { h with live := A ++ B, freed := p :: h.freed } := by
  have hmem : p ∈ h.live := by rw [hl]; simp
  have herase : h.live.erase p = A ++ B := by
    rw [hl, List.erase_append_right _ hp, List.erase_cons_head]
  simp only [Heap.free, hmem, if_true, herase]

theorem allocTags_eq (tags : List GoString) :
    ∀ h : Heap, allocTags tags h
      = (List.range' h.next tags.length,
          { h with next := h.next + tags.length,
                   live := (List.range' h.next tags.length).reverse ++ h.live }) := by
  induction tags with
  | nil => intro h; simp [allocTags]
  | cons t rest ih =>
    intro h
    simp only [allocTags, Heap.malloc, ih, List.length_cons, List.range'_succ,
      List.reverse_cons, List.append_assoc, List.singleton_append, Prod.mk.injEq, true_and]
    congr 1
    omega

theorem freeTags_split :
    ∀ (ps : List Nat) (h : Heap) (X Y : List Nat), ps.Nodup → (∀ p ∈ ps, p ∉ X) →
      h.live = X ++ ps.reverse ++ Y →
      freeTags ps h = { h with live := X ++ Y, freed := ps.reverse ++ h.freed } := by
  intro ps
  induction ps with
  | nil =>
    intro h X Y _ _ hl
    simp only [List.reverse_nil, List.append_nil] at hl
    simp [freeTags, ← hl]
  | cons p rest ih =>
    intro h X Y hnd hX hl
    have hnd' := List.nodup_cons.mp hnd
    have hl' : h.live = (X ++ rest.reverse) ++ p :: Y := by
      rw [hl]; simp
    have hp : p ∉ X ++ rest.reverse := by
      simp only [List.mem_append, List.mem_reverse, not_or]
      exact ⟨hX p (List.mem_cons_self _ _), hnd'.1⟩
    have step := free_split h _ _ p hl' hp
    have := ih (h.free p) X Y hnd'.2 (fun q hq => hX q (List.mem_cons_of_mem _ hq))
      (by rw [step])
    rw [show freeTags (p :: rest) h = freeTags rest (h.free p) from rfl, this, step]
    simp

theorem runDeferred_append (d2 d1 : List (Heap → Heap)) (h : Heap) :
    runDeferred (d2 ++ d1) h = runDeferred d1 (runDeferred d2 h) := by
  induction d2 generalizing h with
  | nil => rfl
  | cons f rest ih => exact ih (f h)

/-- What `marshalBuffer` does to the heap: it allocates the blocks `N` (none, or
the handle and the data), and its deferred calls release exactly those. -/
theorem marshalBuffer_spec (x : Option (List UInt8)) (h : Heap) :
    ∃ N : List Nat,
      (marshalBuffer x h).2.2 = { h with next := h.next + N.length, live := N ++ h.live } ∧
      N = (List.range' h.next (2 * x.toList.length)).reverse ∧
      (∀ b, (marshalBuffer x h).1 = some b → b.handle ∈ N ∧ b.data ∈ N) ∧
      ((marshalBuffer x h).1 = none ↔ x = none) ∧
      ∀ (g : Heap) (Y : List Nat), g.live = N ++ Y →
        runDeferred (marshalBuffer x h).2.1 g = { g with live := Y, freed := N.reverse ++ g.freed } := by
  cases x with
  | none =>
    refine ⟨[], by simp [marshalBuffer], by simp, by simp [marshalBuffer], by simp [marshalBuffer], ?_⟩
    intro g Y hg
    simp only [List.nil_append] at hg
    simp [marshalBuffer, runDeferred, ← hg]
  | some bytes =>
    refine ⟨[h.next + 1, h.next], ?_, ?_, ?_, ?_, ?_⟩
    · simp [marshalBuffer, Heap.malloc]
    · simp [List.range']
    · intro b hb
      simp only [marshalBuffer, Heap.malloc, Option.some.injEq] at hb
      subst hb
      simp
    · simp [marshalBuffer]
    · intro g Y hg
      have s1 := free_split g [] (h.next :: Y) (h.next + 1) (by simpa using hg) (by simp)
      have s2 := free_split (g.free (h.next + 1)) [] Y h.next (by rw [s1]) (by simp)
      rw [s1] at s2
      simp only [marshalBuffer, Heap.malloc, runDeferred, TF_DeleteBuffer, s1, s2]
      simp

theorem range'_rev_append (s m n : Nat) :
    (List.range' (s + m) n).reverse ++ (List.range' s m).reverse
      = (List.range' s (m + n)).reverse := by
  rw [← List.reverse_append, List.range'_append_1, Nat.add_comm]

/-- C9: in every call of `LoadSavedModel` with a non-empty tag list that
reaches the native load call, whatever status that call leaves, every scratch
block allocated during the call is live and unreleased at the native call, is
released exactly once by the time the function returns, and the live blocks
are then those of before the call. -/
theorem LoadSavedModel_releases_scratch {O S G E : Type} (cOpt : O) (graph : G)
    (load : LoadCall O G → S × TF_Status) (exportDir : GoString) (tags : List GoString)
    (runOptions metaGraph : Option (List UInt8)) (h : Heap)
    (htags : tags ≠ []) (hfresh : ∀ a ∈ h.live, a < h.next) :
    ∃ (call : LoadCall O G) (allocated : List Nat),
      (LoadSavedModel (S := S) (E := E) (cOpt, none) graph load exportDir tags
        runOptions metaGraph h).call = some call ∧
      -- the blocks allocated during the call
      allocated.Nodup ∧ (∀ a ∈ allocated, a ∉ h.live) ∧
      allocated.length
        = 1 + tags.length + 2 * runOptions.toList.length + 2 * metaGraph.toList.length ∧
      -- at the native call all of them are live and none has been released
      call.heap.live = allocated ++ h.live ∧ call.heap.freed = h.freed ∧
      call.heap.faults = h.faults ∧
      -- what the native call receives points into them
      call.cExportDir ∈ allocated ∧ (∀ p ∈ call.cTags, p ∈ allocated) ∧
      call.cTags.length = tags.length ∧ call.ntags = tags.length ∧
      call.exportDirText = exportDir ∧ call.tagTexts = tags ∧
      (∀ b, call.runOptions = some b → b.handle ∈ allocated ∧ b.data ∈ allocated) ∧
      (call.runOptions = none ↔ runOptions = none) ∧
      (∀ b, call.metaGraph = some b → b.handle ∈ allocated ∧ b.data ∈ allocated) ∧
      (call.metaGraph = none ↔ metaGraph = none) ∧
      -- at the return each has been released once, and nothing else
      (LoadSavedModel (S := S) (E := E) (cOpt, none) graph load exportDir tags
        runOptions metaGraph h).heap.live = h.live ∧
      (LoadSavedModel (S := S) (E := E) (cOpt, none) graph load exportDir tags
        runOptions metaGraph h).heap.faults = h.faults ∧
      (∃ released, (LoadSavedModel (S := S) (E := E) (cOpt, none) graph load exportDir tags
          runOptions metaGraph h).heap.freed = released ++ h.freed ∧
        released.Perm allocated) ∧
      (LoadSavedModel (S := S) (E := E) (cOpt, none) graph load exportDir tags
        runOptions metaGraph h).doneOpt = 1 ∧
      -- the error is returned when the status is non-zero, the model otherwise
      (LoadSavedModel (S := S) (E := E) (cOpt, none) graph load exportDir tags
        runOptions metaGraph h).outcome
        = (if (load call).2.code ≠ 0 then
            Outcome.returned
              (none, some (LoadError.fromStatus (load call).2.code (load call).2.message))
          else
            Outcome.returned (some { Session := { c := (load call).1 }, Graph := graph }, none)) := by
  obtain ⟨t, ts, rfl⟩ := List.exists_cons_of_ne_nil htags
  obtain ⟨n, L, F, B⟩ := h
  simp only at hfresh
  -- the heap after `C.CString(exportDir)` and the tag loop
  have e2 : allocTags (t :: ts) { next := n + 1, live := n :: L, freed := F, faults := B }
      = ((n + 1) :: List.range' (n + 1 + 1) ts.length,
          { next := n + 1 + (ts.length + 1),
            live := ((n + 1) :: List.range' (n + 1 + 1) ts.length).reverse ++ n :: L,
            freed := F, faults := B }) := by
    rw [allocTags_eq]
    simp [List.range'_succ]
  rcases hm1 : marshalBuffer runOptions
      { next := n + 1 + (ts.length + 1),
        live := ((n + 1) :: List.range' (n + 1 + 1) ts.length).reverse ++ n :: L,
        freed := F, faults := B } with ⟨b1, d1, h3⟩
  obtain ⟨N1, hh3, hN1, hb1, hnone1, hdef1⟩ := marshalBuffer_spec runOptions
      { next := n + 1 + (ts.length + 1),
        live := ((n + 1) :: List.range' (n + 1 + 1) ts.length).reverse ++ n :: L,
        freed := F, faults := B }
  rw [hm1] at hh3 hb1 hnone1 hdef1
  simp only at hh3 hb1 hnone1 hdef1 hN1
  rcases hm2 : marshalBuffer metaGraph h3 with ⟨b2, d2, h4⟩
  obtain ⟨N2, hh4, hN2, hb2, hnone2, hdef2⟩ := marshalBuffer_spec metaGraph h3
  rw [hm2] at hh4 hb2 hnone2 hdef2
  simp only at hh4 hb2 hnone2 hdef2
  subst hh3
  subst hh4
  simp only at hN2
  simp only [LoadSavedModel, Heap.malloc, e2, hm1, hm2]
  -- every block of the call, as one range of addresses
  have hT : (n + 1) :: List.range' (n + 1 + 1) ts.length = List.range' (n + 1) (ts.length + 1) := by
    rw [List.range'_succ]
  have hlen1 : N1.length = 2 * runOptions.toList.length := by rw [hN1]; simp
  have hlen2 : N2.length = 2 * metaGraph.toList.length := by rw [hN2]; simp
  have hall : N2 ++ (N1 ++ (((n + 1) :: List.range' (n + 1 + 1) ts.length).reverse ++ [n]))
      = (List.range' n (1 + (ts.length + 1) + 2 * runOptions.toList.length
          + 2 * metaGraph.toList.length)).reverse := by
    have hn : [n] = (List.range' n 1).reverse := by simp [List.range']
    rw [hT, hn, range'_rev_append, hN2, hlen1, hN1]
    have e1 : n + 1 + (ts.length + 1) = n + (1 + (ts.length + 1)) := by omega
    rw [e1, range'_rev_append]
    have e3 : n + (1 + (ts.length + 1)) + 2 * runOptions.toList.length
        = n + (1 + (ts.length + 1) + 2 * runOptions.toList.length) := by omega
    rw [e3, range'_rev_append]
  have hmemT : ∀ p ∈ (n + 1) :: List.range' (n + 1 + 1) ts.length,
      n + 1 ≤ p ∧ p < n + 1 + (ts.length + 1) := by
    intro p hp
    rw [hT] at hp
    simpa using List.mem_range'_1.mp hp
  have hmem1 : ∀ a ∈ N1, n + 1 + (ts.length + 1) ≤ a := by
    intro a ha
    rw [hN1] at ha
    exact (List.mem_range'_1.mp (List.mem_reverse.mp ha)).1
  have hmem2 : ∀ a ∈ N2, n + 1 + (ts.length + 1) ≤ a := by
    intro a ha
    rw [hN2] at ha
    have := (List.mem_range'_1.mp (List.mem_reverse.mp ha)).1
    omega
  -- the releases after the native call
  have hTnodup : ((n + 1) :: List.range' (n + 1 + 1) ts.length).Nodup := by
    rw [hT]; exact List.nodup_range' _ _
  have hTX : ∀ p ∈ (n + 1) :: List.range' (n + 1 + 1) ts.length, p ∉ N2 ++ N1 := by
    intro p hp hmem
    have h1 := hmemT p hp
    rcases List.mem_append.mp hmem with h | h
    · have := hmem2 p h; omega
    · have := hmem1 p h; omega
  have hnX : n ∉ N2 ++ N1 := by
    intro hmem
    rcases List.mem_append.mp hmem with h | h
    · have := hmem2 n h; omega
    · have := hmem1 n h; omega
  have ft : freeTags ((n + 1) :: List.range' (n + 1 + 1) ts.length)
      { next := n + 1 + (ts.length + 1) + N1.length + N2.length,
        live := N2 ++ (N1 ++ (((n + 1) :: List.range' (n + 1 + 1) ts.length).reverse ++ n :: L)),
        freed := F, faults := B }
      = { next := n + 1 + (ts.length + 1) + N1.length + N2.length,
          live := (N2 ++ N1) ++ n :: L,
          freed := ((n + 1) :: List.range' (n + 1 + 1) ts.length).reverse ++ F, faults := B } :=
    freeTags_split _ _ (N2 ++ N1) (n :: L) hTnodup hTX (by simp)
  have fn : Heap.free
      { next := n + 1 + (ts.length + 1) + N1.length + N2.length,
        live := (N2 ++ N1) ++ n :: L,
        freed := ((n + 1) :: List.range' (n + 1 + 1) ts.length).reverse ++ F, faults := B } n
      = { next := n + 1 + (ts.length + 1) + N1.length + N2.length,
          live := N2 ++ (N1 ++ L),
          freed := n :: (((n + 1) :: List.range' (n + 1 + 1) ts.length).reverse ++ F),
          faults := B } := by
    rw [free_split _ (N2 ++ N1) L n rfl hnX]
    simp
  have fd2 : runDeferred d2
      { next := n + 1 + (ts.length + 1) + N1.length + N2.length,
        live := N2 ++ (N1 ++ L),
        freed := n :: (((n + 1) :: List.range' (n + 1 + 1) ts.length).reverse ++ F),
        faults := B }
      = { next := n + 1 + (ts.length + 1) + N1.length + N2.length,
          live := N1 ++ L,
          freed := N2.reverse ++ n :: (((n + 1) :: List.range' (n + 1 + 1) ts.length).reverse ++ F),
          faults := B } :=
    hdef2 _ (N1 ++ L) rfl
  have fd1 : runDeferred d1
      { next := n + 1 + (ts.length + 1) + N1.length + N2.length,
        live := N1 ++ L,
        freed := N2.reverse ++ n :: (((n + 1) :: List.range' (n + 1 + 1) ts.length).reverse ++ F),
        faults := B }
      = { next := n + 1 + (ts.length + 1) + N1.length + N2.length,
          live := L,
          freed := N1.reverse ++ (N2.reverse ++
            n :: (((n + 1) :: List.range' (n + 1 + 1) ts.length).reverse ++ F)),
          faults := B } :=
    hdef1 _ L rfl
  rw [ft, fn, runDeferred_append, fd2, fd1]
  refine ⟨{ cOpt := cOpt, runOptions := b1, cExportDir := n,
            cTags := (n + 1) :: List.range' (n + 1 + 1) ts.length,
            ntags := ((n + 1) :: List.range' (n + 1 + 1) ts.length).length, graph := graph,
            metaGraph := b2, exportDirText := exportDir, tagTexts := t :: ts,
            heap :=
              { next := n + 1 + (ts.length + 1) + N1.length + N2.length,
                live := N2 ++ (N1 ++ (((n + 1) :: List.range' (n + 1 + 1) ts.length).reverse ++ n :: L)),
                freed := F, faults := B } },
          N2 ++ (N1 ++ (((n + 1) :: List.range' (n + 1 + 1) ts.length).reverse ++ [n])), ?_⟩
  generalize load _ = res
  obtain ⟨cSess, st⟩ := res
  have hmemAll : ∀ a, a ∈ N2 ++ (N1 ++ (((n + 1) :: List.range' (n + 1 + 1) ts.length).reverse ++ [n]))
      → n ≤ a := by
    intro a ha
    rw [hall] at ha
    exact (List.mem_range'_1.mp (List.mem_reverse.mp ha)).1
  have hperm : (N1.reverse ++ (N2.reverse ++
        n :: ((n + 1) :: List.range' (n + 1 + 1) ts.length).reverse)).Perm
      (N2 ++ (N1 ++ (((n + 1) :: List.range' (n + 1 + 1) ts.length).reverse ++ [n]))) := by
    have p1 : (N1.reverse ++ (N2.reverse ++
        n :: ((n + 1) :: List.range' (n + 1 + 1) ts.length).reverse)).Perm
        (N1 ++ (N2 ++ (((n + 1) :: List.range' (n + 1 + 1) ts.length).reverse ++ [n]))) :=
      (List.reverse_perm N1).append ((List.reverse_perm N2).append
        (List.perm_append_singleton _ _).symm)
    exact p1.trans (List.perm_append_comm_assoc _ _ _)
  have hrest : (N2 ++ (N1 ++ (((n + 1) :: List.range' (n + 1 + 1) ts.length).reverse ++ [n]))).Nodup ∧
      (∀ a ∈ N2 ++ (N1 ++ (((n + 1) :: List.range' (n + 1 + 1) ts.length).reverse ++ [n])), a ∉ L) ∧
      (N2 ++ (N1 ++ (((n + 1) :: List.range' (n + 1 + 1) ts.length).reverse ++ [n]))).length
        = 1 + (t :: ts).length + 2 * runOptions.toList.length + 2 * metaGraph.toList.length := by
    refine ⟨?_, ?_, ?_⟩
    · rw [hall]; exact List.nodup_reverse.mpr (List.nodup_range' _ _)
    · intro a ha hL
      have := hmemAll a ha
      have := hfresh a hL
      omega
    · rw [hall]; simp
  have hptr : ∀ (N : List Nat) (bo : Option TFBuffer),
      (∀ b, bo = some b → b.handle ∈ N ∧ b.data ∈ N) → (N = N1 ∨ N = N2) →
      ∀ b, bo = some b →
        b.handle ∈ N2 ++ (N1 ++ (((n + 1) :: List.range' (n + 1 + 1) ts.length).reverse ++ [n])) ∧
        b.data ∈ N2 ++ (N1 ++ (((n + 1) :: List.range' (n + 1 + 1) ts.length).reverse ++ [n])) := by
    intro N bo hN hor b hb
    obtain ⟨m1, m2⟩ := hN b hb
    rcases hor with e | e <;> subst e <;> simp [m1, m2]
  have hse : statusErr (E := E) st
      = if st.code ≠ 0 then some (LoadError.fromStatus st.code st.message) else none := rfl
  have hTmem : ∀ p ∈ (n + 1) :: List.range' (n + 1 + 1) ts.length,
      p ∈ N2 ++ (N1 ++ (((n + 1) :: List.range' (n + 1 + 1) ts.length).reverse ++ [n])) := by
    intro p hp
    simp only [List.mem_append, List.mem_reverse]
    exact Or.inr (Or.inr (Or.inl hp))
  refine ⟨?_, hrest.1, hrest.2.1, hrest.2.2, ?_, rfl, rfl, ?_, hTmem, ?_, ?_, rfl, rfl,
    hptr N1 b1 hb1 (Or.inl rfl), hnone1, hptr N2 b2 hb2 (Or.inr rfl), hnone2, ?_, ?_,
    ⟨_, ?_, hperm⟩, ?_, ?_⟩
  all_goals (by_cases hc : st.code = 0 <;> simp [hse, hc])

/-! ### The claims at concrete inputs -/

/-- C3 at the status with code 3 and message "failed". -/
theorem statusToError_spec_witness :
    ({ code := 3, message := ascii "failed" } : TF_Status).code ≠ 0 ∧
    statusToError { code := 3, message := ascii "failed" }
      = some (ascii "tensorflow: " ++ formatInt 3 ++ ascii ": " ++ ascii "failed") :=
  ⟨by decide, (statusToError_spec { code := 3, message := ascii "failed" }).2.1 (by decide)⟩

/-- C4 at a value of type `int`. -/
theorem Constant_unsupported_type_witness :
    (Constant (T := Nat) (E := Unit) () () (fun _ => (none, none))
        (Value.other (ascii "int"))).outcome
      = Outcome.returned (none, some (ConstantError.errorf
          (ascii "tensorflow: unsupported type " ++ ascii "int"))) ∧
    ascii "int" = ascii "int" :=
  ⟨((Constant_unsupported_type (T := Nat) (E := Unit) () () (fun _ => (none, none))).1
      (ascii "int")).2,
   (Constant_unsupported_type (T := Nat) (E := Unit) () () (fun _ => (none, none))).2.1
      (ascii "int") (ascii "int") rfl⟩

/-- C5 at the string "ab", with a `newTensor` that succeeds. -/
theorem Constant_string_witness :
    encodedSize [ascii "ab"] < 2 ^ 63 ∧
    (Constant (E := Unit) () () (fun c => (some c.size, none)) (Value.string (ascii "ab"))).calls
      = [{ dataType := (), shape := (), data := [0, 0, 0, 0, 0, 0, 0, 0, 2, 97, 98], size := 11 }] := by
  refine ⟨by decide, ?_⟩
  obtain ⟨buf, _, hbuf, _, hcalls, _⟩ :=
    Constant_string (E := Unit) () () (fun c => (some c.size, none)) (ascii "ab") (by decide)
  rw [hcalls, hbuf]
  decide

/-- C6 at the outputs `["b","a"]`, with an engine that yields the fetch names
themselves, for two iteration orders of a two-entry input map. -/
theorem Run_output_order_witness :
    (Run (fun c : RunCall Unit GoString => (c.outputNames, { code := 0, message := [] })) ()
        [(ascii "y", { tensor := ascii "u" }), (ascii "x", { tensor := ascii "t" })]
        [ascii "b", ascii "a"] []).result
      = [{ tensor := ascii "b" }, { tensor := ascii "a" }] :=
  (Run_output_order (fun c : RunCall Unit GoString => (c.outputNames, { code := 0, message := [] }))
      () [(ascii "x", { tensor := ascii "t" }), (ascii "y", { tensor := ascii "u" })]
      [ascii "b", ascii "a"] []).2.2.2.2.2.2
    (fun _ name => name) (fun _ => (List.map_id _).symm) (fun _ _ _ => rfl)
    [(ascii "y", { tensor := ascii "u" }), (ascii "x", { tensor := ascii "t" })]
    (List.Perm.swap _ _ _)

/-- C7 as amended, at a native call that fails with code 3. -/
theorem Run_error_and_results_witness :
    (Run (fun _ : RunCall Unit Nat => ([7], { code := 3, message := ascii "failed" })) ()
        [] [ascii "a"] []).err ≠ none :=
  (Run_error_and_results
      (fun _ : RunCall Unit Nat => ([7], { code := 3, message := ascii "failed" })) ()
      [] [ascii "a"] []).2.2.1 (by decide)

/-- C9 at one tag, run options present, no meta graph, and a native load call
that fails with code 5. -/
theorem LoadSavedModel_releases_scratch_witness :
    [ascii "serve"] ≠ [] ∧
    (∀ a ∈ ({ next := 5, live := [1, 3], freed := [], faults := [] } : Heap).live, a < 5) ∧
    (LoadSavedModel (S := Unit) (E := Unit) ((), none) ()
        (fun _ : LoadCall Unit Unit => ((), { code := 5, message := ascii "not found" }))
        (ascii "/m") [ascii "serve"] (some [1]) none
        { next := 5, live := [1, 3], freed := [], faults := [] }).heap.live = [1, 3] ∧
    (LoadSavedModel (S := Unit) (E := Unit) ((), none) ()
        (fun _ : LoadCall Unit Unit => ((), { code := 5, message := ascii "not found" }))
        (ascii "/m") [ascii "serve"] (some [1]) none
        { next := 5, live := [1, 3], freed := [], faults := [] }).heap.faults = [] ∧
    (LoadSavedModel (S := Unit) (E := Unit) ((), none) ()
        (fun _ : LoadCall Unit Unit => ((), { code := 5, message := ascii "not found" }))
        (ascii "/m") [ascii "serve"] (some [1]) none
        { next := 5, live := [1, 3], freed := [], faults := [] }).outcome
      = Outcome.returned (none, some (LoadError.fromStatus 5 (ascii "not found"))) := by
  obtain ⟨call, allocated, _, _, _, _, _, _, _, _, _, _, _, _, _, _, _, _, _, hlive, hfaults, _, _,
      hout⟩ :=
    LoadSavedModel_releases_scratch (S := Unit) (E := Unit) () ()
      (fun _ : LoadCall Unit Unit => ((), { code := 5, message := ascii "not found" }))
      (ascii "/m") [ascii "serve"] (some [1]) none
      { next := 5, live := [1, 3], freed := [], faults := [] } (by decide) (by decide)
  exact ⟨by decide, by decide, hlive, hfaults, hout⟩

end TensorFlow
